import Mathlib

/-!
Verification of the multi-owner wallet / credential-delegation repository.

Strings from the JavaScript source are embedded as lists of character
codes (List Nat); JS Map objects are embedded as insertion-ordered
association lists.  External cryptographic primitives (node:crypto) and
the external hash used by EIP-55 checksumming are abstracted as explicit
function parameters, so every theorem quantifies over them.
-/

namespace Coala

/-! ## ASCII helpers (JS toLowerCase / toUpperCase on char codes) -/

def toLowerAscii (c : Nat) : Nat :=
  if 65 ≤ c ∧ c ≤ 90 then c + 32 else c

def toUpperAscii (c : Nat) : Nat :=
  if 97 ≤ c ∧ c ≤ 122 then c - 32 else c

/-- The character class of the viem address regex 0x[a-fA-F0-9]. -/
def isHexCharCode (c : Nat) : Bool :=
  decide ((48 ≤ c ∧ c ≤ 57) ∨ (97 ≤ c ∧ c ≤ 102) ∨ (65 ≤ c ∧ c ≤ 70))

/-! ## AddressCodec: embedding of viem getAddress / checksumAddress

viem validates the raw string against the regex of a 0x-prefixed
20-byte hex identifier and then applies EIP-55 checksumming: the hash
of the lowercased 40-char body decides, nibble by nibble, which hex
letters are uppercased.  The hash itself (keccak-256) is external; it
is abstracted as a parameter giving nibble i of the hash of a body. -/

def isAddress (s : List Nat) : Bool :=
  match s with
  | c0 :: c1 :: body =>
    (c0 == 48) && (c1 == 120) && decide (body.length = 40) && body.all isHexCharCode
  | _ => false

def mapWithIndex (f : Nat → α → β) : Nat → List α → List β
  | _, [] => []
  | i, x :: xs => f i x :: mapWithIndex f (i + 1) xs

def checksumAddress (hashNib : List Nat → Nat → Nat) (s : List Nat) : List Nat :=
  let hexAddress := (s.drop 2).map toLowerAscii
  48 :: 120 ::
    mapWithIndex (fun i c => if 8 ≤ hashNib hexAddress i then toUpperAscii c else c) 0 hexAddress

def getAddress (hashNib : List Nat → Nat → Nat) (s : List Nat) : Except String (List Nat) :=
  if isAddress s then Except.ok (checksumAddress hashNib s) else Except.error "InvalidAddress"

/-! ## Numeric value of a hex address (used by bundle ordering) -/

def hexDigitVal (c : Nat) : Nat :=
  if 48 ≤ c ∧ c ≤ 57 then c - 48
  else if 97 ≤ c ∧ c ≤ 102 then c - 87
  else if 65 ≤ c ∧ c ≤ 70 then c - 55
  else 0

def hexVal (s : List Nat) : Nat :=
  s.foldl (fun acc c => 16 * acc + hexDigitVal c) 0

/-- Numeric value of a 0x-prefixed address string. -/
def addrVal (a : List Nat) : Nat := hexVal (a.drop 2)

/-- A lowercase hex digit code: the character class [0-9a-f]. -/
def isLowerHexCharCode (c : Nat) : Bool :=
  decide ((48 ≤ c ∧ c ≤ 57) ∨ (97 ≤ c ∧ c ≤ 102))

/-! ## Insertion-ordered association map (JS Map semantics) -/

def mapSet [BEq κ] (k : κ) (v : ν) : List (κ × ν) → List (κ × ν)
  | [] => [(k, v)]
  | (k', v') :: rest => if k' == k then (k', v) :: rest else (k', v') :: mapSet k v rest

def mapGet [BEq κ] (k : κ) : List (κ × ν) → Option ν
  | [] => none
  | (k', v') :: rest => if k' == k then some v' else mapGet k rest

/-! ## QuorumCoordinator: the PendingTransactions component

Embedding of handleSignTransaction and handleExecuteTransaction.  A
confirmation is the (owner, signature) pair held by the Safe
Transaction Service for a transaction; the confirmation list passed
around is the authoritative confirmation set of one transaction. -/

structure Confirmation where
  owner : List Nat
  signature : List Nat
deriving DecidableEq

inductive SignOutcome where
  | notOwner
  | alreadySigned
  | confirmed
deriving DecidableEq

/-- JS Array.prototype.some with a predicate that can throw: evaluates
left to right and short-circuits, propagating the first exception. -/
def someThrow (p : α → Except String Bool) : List α → Except String Bool
  | [] => Except.ok false
  | x :: xs =>
    match p x with
    | Except.error e => Except.error e
    | Except.ok true => Except.ok true
    | Except.ok false => someThrow p xs

/-- The already-signed predicate of handleSignTransaction: compares the
checksummed owner of a stored confirmation, lowercased, against the
lowercased current address (getAddress throws on a malformed owner). -/
def sameOwnerCheck (hashNib : List Nat → Nat → Nat) (currentAddress : List Nat)
    (conf : Confirmation) : Except String Bool :=
  match getAddress hashNib conf.owner with
  | Except.error e => Except.error e
  | Except.ok a =>
    Except.ok (a.map toLowerAscii == currentAddress.map toLowerAscii)

/-- Embedding of handleSignTransaction.  Inputs: the owner list of the
Safe, the raw connected-wallet address, the signature produced by the
signing step, and the confirmation set held by the transaction
service.  Returns the user-visible outcome and the confirmation set
after the call (the set is unchanged unless a confirmation is
submitted).  Errors model thrown exceptions, which the component
catches without touching the confirmation set. -/
def handleSignTransaction (hashNib : List Nat → Nat → Nat) (owners : List (List Nat))
    (rawAddr sig : List Nat) (confs : List Confirmation) :
    Except String (SignOutcome × List Confirmation) :=
  match getAddress hashNib rawAddr with
  | Except.error e => Except.error e
  | Except.ok currentAddress =>
    if (owners.contains currentAddress) = false then
      Except.ok (SignOutcome.notOwner, confs)
    else
      match someThrow (sameOwnerCheck hashNib currentAddress) confs with
      | Except.error e => Except.error e
      | Except.ok true => Except.ok (SignOutcome.alreadySigned, confs)
      | Except.ok false =>
        if sig = [] then
          Except.error "Failed to extract signature from signed transaction"
        else
          Except.ok (SignOutcome.confirmed, confs ++ [⟨currentAddress, sig⟩])

structure SignRequest where
  rawAddr : List Nat
  signature : List Nat

/-- Replay a sequence of sign attempts against the confirmation set; a
thrown error leaves the set unchanged (the component catches it and
only displays the message). -/
def applySignRequests (hashNib : List Nat → Nat → Nat) (owners : List (List Nat)) :
    List SignRequest → List Confirmation → List Confirmation
  | [], confs => confs
  | r :: rs, confs =>
    match handleSignTransaction hashNib owners r.rawAddr r.signature confs with
    | Except.ok (_, confs2) => applySignRequests hashNib owners rs confs2
    | Except.error _ => applySignRequests hashNib owners rs confs

/-- The normalized identity of a confirmation owner: the lowercased
checksummed address, or none for a malformed owner string. -/
def ownerKey (hashNib : List Nat → Nat → Nat) (conf : Confirmation) : Option (List Nat) :=
  match getAddress hashNib conf.owner with
  | Except.ok a => some (a.map toLowerAscii)
  | Except.error _ => none

/-- Number of confirmations held by the owner with normalized key k. -/
def countFor (hashNib : List Nat → Nat → Nat) (k : List Nat)
    (confs : List Confirmation) : Nat :=
  confs.countP (fun c => ownerKey hashNib c == some k)

/-! ## Execution and signature bundling -/

/-- The signature-collection loop of handleExecuteTransaction:
normalizes each confirmation owner with getAddress (throwing on a
malformed owner aborts the whole execution attempt) and keeps the
(owner, signature) pairs whose signature is non-empty (truthy). -/
def collectSignatures (hashNib : List Nat → Nat → Nat) :
    List Confirmation → Except String (List (List Nat × List Nat))
  | [] => Except.ok []
  | c :: rest =>
    match getAddress hashNib c.owner with
    | Except.error e => Except.error e
    | Except.ok ownerAddress =>
      match collectSignatures hashNib rest with
      | Except.error e => Except.error e
      | Except.ok tail =>
        if c.signature = [] then Except.ok tail
        else Except.ok ((ownerAddress, c.signature) :: tail)

/-- Modelled from the spec: the SignatureBundler sort-and-merge step is
performed inside the external Safe SDK (addSignature keys a map by the
lowercased signer and executeTransaction emits the signatures sorted by
signer), which is not part of this repository.  Per the spec, bundling
deduplicates by owner keeping the most recent signature, then sorts
ascending by the numeric value of the normalized owner address. -/
def addSignaturesToMap (entries : List (List Nat × List Nat)) :
    List (List Nat × List Nat) :=
  entries.foldl (fun m e => mapSet (e.1.map toLowerAscii) e.2 m) []

/-- Modelled from the spec: ascending sort by numeric owner value. -/
def sortByAddrVal (entries : List (List Nat × List Nat)) : List (List Nat × List Nat) :=
  entries.mergeSort (fun e1 e2 => Nat.ble (addrVal e1.1) (addrVal e2.1))

/-- Modelled from the spec: the assembled signature bundle, as the
ordered list of (normalized owner, signature bytes) pairs whose
signature bytes are concatenated in emission order. -/
def bundleSignatures (entries : List (List Nat × List Nat)) :
    List (List Nat × List Nat) :=
  sortByAddrVal (addSignaturesToMap entries)

inductive ExecResult where
  | thresholdNotMet (need got : Nat)
  | executed (bundle : List (List Nat × List Nat))
deriving DecidableEq

/-- Embedding of handleExecuteTransaction.  The ledger argument is the
list of bundles submitted to the external ledger so far; the threshold
guard returns before any bundle is assembled or submitted. -/
def handleExecuteTransaction (hashNib : List Nat → Nat → Nat) (threshold : Nat)
    (confs : List Confirmation) (ledger : List (List (List Nat × List Nat))) :
    Except String (ExecResult × List (List (List Nat × List Nat))) :=
  if confs.length < threshold then
    Except.ok (ExecResult.thresholdNotMet threshold confs.length, ledger)
  else
    match collectSignatures hashNib confs with
    | Except.error e => Except.error e
    | Except.ok entries =>
      let b := bundleSignatures entries
      Except.ok (ExecResult.executed b, ledger ++ [b])

/-! ## EnvelopeCrypto: the DelegationService decryption pipeline

The node:crypto primitives (RSA-OAEP private decryption, AES-256-GCM
authenticated open, base64url decoding) and JSON.parse are external;
they are collected in a record of abstract functions.  A none result
models the primitive throwing (OAEP padding failure, GCM tag
verification failure, JSON syntax error). -/

structure EncryptedPayload where
  ek : List Nat
  iv : List Nat
  ct : List Nat
  tag : List Nat
deriving DecidableEq

structure CryptoPrimitives where
  rsaOaepDecrypt : List Nat → List Nat → Option (List Nat)
  aesGcmOpen : List Nat → List Nat → List Nat → List Nat → Option (List Nat)
  b64urlDecode : List Nat → List Nat
  jsonParse : List Nat → Option (List Nat)

/-- The replace of literal backslash-n escape pairs (codes 92, 110)
with a newline (code 10) applied to the private key PEM string. -/
def replaceEscapedNewlines : List Nat → List Nat
  | [] => []
  | 92 :: 110 :: rest => 10 :: replaceEscapedNewlines rest
  | c :: rest => c :: replaceEscapedNewlines rest

/-- Embedding of DelegationService.decryptAesGcm: base64url-decodes iv,
ciphertext and tag, then performs the authenticated open; the
plaintext exists only if the tag verifies (decipher.final throws
otherwise and nothing is returned). -/
def decryptAesGcm (p : CryptoPrimitives) (encryptedKey ivB64 ctB64 tagB64 : List Nat) :
    Option (List Nat) :=
  p.aesGcmOpen encryptedKey (p.b64urlDecode ivB64) (p.b64urlDecode ctB64)
    (p.b64urlDecode tagB64)

/-- Embedding of DelegationService.rsaOaepDecryptEk: normalizes the PEM
newlines and OAEP-decrypts the base64url-decoded wrapped key. -/
def rsaOaepDecryptEk (p : CryptoPrimitives) (privateKeyPem ekB64 : List Nat) :
    Option (List Nat) :=
  p.rsaOaepDecrypt (replaceEscapedNewlines privateKeyPem) (p.b64urlDecode ekB64)

/-- Embedding of DelegationService.decryptMaterials: both
content-encryption keys are unwrapped with RSA-OAEP, both payloads are
opened with AES-256-GCM, the delegated share is JSON-parsed; any
failure makes the whole call throw.  The result pairs the parsed
delegated share with the wallet API key string. -/
def decryptMaterials (p : CryptoPrimitives) (privateKeyPem : List Nat)
    (share apiKeyEnc : EncryptedPayload) : Except String (List Nat × List Nat) :=
  match rsaOaepDecryptEk p (replaceEscapedNewlines privateKeyPem) share.ek with
  | none => Except.error "Failed to decrypt delegation materials"
  | some shareKey =>
    match rsaOaepDecryptEk p (replaceEscapedNewlines privateKeyPem) apiKeyEnc.ek with
    | none => Except.error "Failed to decrypt delegation materials"
    | some walletApiKeyKey =>
      match decryptAesGcm p shareKey share.iv share.ct share.tag with
      | none => Except.error "Failed to decrypt delegation materials"
      | some delegatedShareBuffer =>
        match decryptAesGcm p walletApiKeyKey apiKeyEnc.iv apiKeyEnc.ct apiKeyEnc.tag with
        | none => Except.error "Failed to decrypt delegation materials"
        | some walletApiKeyBuffer =>
          match p.jsonParse delegatedShareBuffer with
          | none => Except.error "Failed to decrypt delegation materials"
          | some delegatedShare => Except.ok (delegatedShare, walletApiKeyBuffer)

/-! ## Webhook processing -/

structure WebhookData where
  chain : List Nat
  encryptedDelegatedShare : EncryptedPayload
  encryptedWalletApiKey : EncryptedPayload
  publicKey : List Nat
  userId : List Nat
  walletId : List Nat

structure DelegationWebhook where
  messageId : List Nat
  eventId : List Nat
  eventName : List Nat
  timestamp : List Nat
  userId : List Nat
  environmentId : List Nat
  data : WebhookData

/-- Embedding of DelegationService.verifyWebhookSignature: the source
is an unimplemented stub that warns and returns true for every input. -/
def verifyWebhookSignature (payload signature webhookSecret : List Nat) : Bool :=
  true

structure ProcessedDelegation where
  userId : List Nat
  walletId : List Nat
  publicKey : List Nat
  delegatedShare : List Nat
  walletApiKey : List Nat
  eventId : List Nat
deriving DecidableEq

/-- Embedding of DelegationService.processDelegationWebhook: when a
webhook secret is configured, the signature check runs on the
stringified payload (with an empty signature, per the TODO in the
source) and a failed check throws before decryption; then the two
envelopes are decrypted and the structured result is returned. -/
def processDelegationWebhook (p : CryptoPrimitives)
    (stringifyWebhook : DelegationWebhook → List Nat) (webhook : DelegationWebhook)
    (privateKeyPem : List Nat) (webhookSecret : Option (List Nat)) :
    Except String ProcessedDelegation :=
  let check : Except String Unit :=
    match webhookSecret with
    | some secret =>
      if verifyWebhookSignature (stringifyWebhook webhook) [] secret = false then
        Except.error "Invalid webhook signature"
      else Except.ok ()
    | none => Except.ok ()
  match check with
  | Except.error e => Except.error e
  | Except.ok _ =>
    match decryptMaterials p privateKeyPem webhook.data.encryptedDelegatedShare
        webhook.data.encryptedWalletApiKey with
    | Except.error e => Except.error e
    | Except.ok r =>
      Except.ok ⟨webhook.data.userId, webhook.data.walletId, webhook.data.publicKey,
        r.1, r.2, webhook.eventId⟩

/-! ## The in-memory store (delegated-access records) -/

structure DelegatedAccess where
  id : List Nat
  vaultId : List Nat
  walletId : List Nat
  userId : List Nat
  delegateUserId : List Nat
  delegateEmail : List Nat
  publicKey : List Nat
  delegatedShare : Option (List Nat)
  walletApiKey : List Nat
  createdAt : List Nat
  status : List Nat
  eventId : Option (List Nat)
deriving DecidableEq

/-- The delegatedAccesses Map of the Store singleton, keyed by id. -/
abbrev StoreState := List (List Nat × DelegatedAccess)

/-- Embedding of Store.createDelegatedAccess: Map.set keyed by id. -/
def createDelegatedAccess (da : DelegatedAccess) (s : StoreState) :
    DelegatedAccess × StoreState :=
  (da, mapSet da.id da s)

/-- Embedding of Store.getDelegatedAccess. -/
def getDelegatedAccess (id : List Nat) (s : StoreState) : Option DelegatedAccess :=
  mapGet id s

/-- Embedding of Store.getAllDelegatedAccesses: Map values in insertion
order. -/
def getAllDelegatedAccesses (s : StoreState) : List DelegatedAccess :=
  s.map (fun kv => kv.2)

/-- Embedding of Store.getDelegatedAccessByEventId: linear find over
the values. -/
def getDelegatedAccessByEventId (eventId : List Nat) (s : StoreState) :
    Option DelegatedAccess :=
  (getAllDelegatedAccesses s).find? (fun da => da.eventId == some eventId)

/-- Embedding of Store.updateDelegatedAccess; the only call site (the
PATCH route) passes a status-only partial, so the update is the spread
of a new status over the existing record. -/
def updateDelegatedAccess (id : List Nat) (newStatus : List Nat) (s : StoreState) :
    Option DelegatedAccess × StoreState :=
  match mapGet id s with
  | none => (none, s)
  | some delegatedAccess =>
    let updated := { delegatedAccess with status := newStatus }
    (some updated, mapSet id updated s)

/-- Number of records in the store carrying a given eventId. -/
def countByEvent (e : List Nat) (s : StoreState) : Nat :=
  (getAllDelegatedAccesses s).countP (fun da => da.eventId == some e)

/-- Modelled from the spec: the webhook route that materializes a
DelegatedAccessRecord on first processing of an eventId
(WebhookLedger.materialize) is not under src; only the store
operations it calls are.  Per the spec, if a record already exists for
the eventId it is returned unchanged without re-storing, otherwise the
record built from the decrypted materials is inserted through
createDelegatedAccess. -/
def materialize (mkRecord : List Nat → DelegatedAccess) (eventId : List Nat)
    (s : StoreState) : DelegatedAccess × StoreState :=
  match getDelegatedAccessByEventId eventId s with
  | some existing => (existing, s)
  | none => createDelegatedAccess (mkRecord eventId) s

/-! ## The delegated-accesses API routes -/

/-- The sanitized response shape shared by the list GET, the by-id GET
and the PATCH route: the delegatedShare and walletApiKey fields are
not part of it. -/
structure SanitizedDelegatedAccess where
  id : List Nat
  vaultId : List Nat
  walletId : List Nat
  userId : List Nat
  delegateUserId : List Nat
  delegateEmail : List Nat
  publicKey : List Nat
  createdAt : List Nat
  status : List Nat
  eventId : Option (List Nat)
deriving DecidableEq

def sanitizeDelegatedAccess (da : DelegatedAccess) : SanitizedDelegatedAccess :=
  { id := da.id, vaultId := da.vaultId, walletId := da.walletId, userId := da.userId,
    delegateUserId := da.delegateUserId, delegateEmail := da.delegateEmail,
    publicKey := da.publicKey, createdAt := da.createdAt, status := da.status,
    eventId := da.eventId }

structure ListQuery where
  vaultId : Option (List Nat)
  walletId : Option (List Nat)
  delegateEmail : Option (List Nat)

/-- A searchParams.get result used as a truthiness-guarded filter: a
missing or empty parameter applies no filter. -/
def applyQueryFilter (field : DelegatedAccess → List Nat) (q : Option (List Nat))
    (das : List DelegatedAccess) : List DelegatedAccess :=
  match q with
  | none => das
  | some v => if v = [] then das else das.filter (fun da => field da == v)

/-- Embedding of GET /api/delegated-accesses: list all records, apply
the optional vaultId, walletId and delegateEmail filters, sanitize. -/
def getDelegatedAccessesRoute (q : ListQuery) (s : StoreState) :
    List SanitizedDelegatedAccess :=
  (applyQueryFilter (fun da => da.delegateEmail) q.delegateEmail
    (applyQueryFilter (fun da => da.walletId) q.walletId
      (applyQueryFilter (fun da => da.vaultId) q.vaultId
        (getAllDelegatedAccesses s)))).map sanitizeDelegatedAccess

inductive IdRouteResponse where
  | notFound
  | updateFailed
  | ok (body : SanitizedDelegatedAccess)
deriving DecidableEq

/-- Embedding of GET /api/delegated-accesses/id. -/
def getDelegatedAccessByIdRoute (id : List Nat) (s : StoreState) : IdRouteResponse :=
  match getDelegatedAccess id s with
  | none => IdRouteResponse.notFound
  | some delegatedAccess => IdRouteResponse.ok (sanitizeDelegatedAccess delegatedAccess)

/-- Embedding of PATCH /api/delegated-accesses/id: looks up the
record, keeps the existing status if the body status is absent or
falsy, updates only the status through Store.updateDelegatedAccess and
returns the sanitized updated record. -/
def patchDelegatedAccessByIdRoute (id : List Nat) (bodyStatus : Option (List Nat))
    (s : StoreState) : IdRouteResponse × StoreState :=
  match getDelegatedAccess id s with
  | none => (IdRouteResponse.notFound, s)
  | some delegatedAccess =>
    let newStatus :=
      match bodyStatus with
      | some v => if v = [] then delegatedAccess.status else v
      | none => delegatedAccess.status
    match updateDelegatedAccess id newStatus s with
    | (none, s2) => (IdRouteResponse.updateFailed, s2)
    | (some updated, s2) => (IdRouteResponse.ok (sanitizeDelegatedAccess updated), s2)

/-! ## DynamicLabsService.triggerDelegation -/

structure Credentials where
  environmentId : List Nat
  authToken : List Nat

structure HttpResponse where
  ok : Bool
  status : Nat
  bodyDelegationId : Option (List Nat)
  errorText : List Nat

structure DelegationTriggerResult where
  success : Bool
  message : String
  delegationId : Option (List Nat)
  requiresClientSide : Bool
deriving DecidableEq

/-- The endpoint loop of triggerDelegation: a response with ok set
returns success immediately; every failure, including the 401/403
branch whose thrown error is caught by the catch of the same try
block, falls through to the next candidate endpoint; none models a
network error (fetch rejection).  When every endpoint has failed the
all-404 result is returned, it is not a thrown error. -/
def allEndpointsFailedResult : DelegationTriggerResult :=
  { success := false,
    message := "Delegation API endpoint not available. Delegation must be triggered via client-side SDK using useWalletDelegation hook.",
    delegationId := none, requiresClientSide := true }

/-- The endpoint loop of triggerDelegation over the fetched responses. -/
def triggerDelegationLoop : List (Option HttpResponse) →
    DelegationTriggerResult
  | [] => allEndpointsFailedResult
  | none :: rest => triggerDelegationLoop rest
  | some r :: rest =>
    if r.ok then
      { success := true,
        message := "Delegation triggered successfully via server-side API",
        delegationId := r.bodyDelegationId, requiresClientSide := false }
    else triggerDelegationLoop rest

/-- Embedding of DynamicLabsService.triggerDelegation: missing
credentials throw; otherwise the four candidate endpoints are tried in
order with the responses supplied by the external fetch. -/
def triggerDelegation (credentials : Option Credentials)
    (responses : List (Option HttpResponse)) : Except String DelegationTriggerResult :=
  match credentials with
  | none =>
    Except.error "Environment ID and AuthToken are required. Please set DYNAMIC_ENVIRONMENT_ID and DYNAMIC_AUTH_TOKEN in .env file."
  | some _ => Except.ok (triggerDelegationLoop responses)

/-! ## Auxiliary definitions used by the statements and proofs -/

/-- The checksummed owner address of a confirmation, for confirmations
whose owner string is well-formed. -/
def normOwner (hashNib : List Nat → Nat → Nat) (c : Confirmation) : List Nat :=
  match getAddress hashNib c.owner with
  | Except.ok a => a
  | Except.error _ => []

/-- The confirmation set after one sign attempt: a thrown error leaves
the set unchanged. -/
def nextConfs (hashNib : List Nat → Nat → Nat) (owners : List (List Nat))
    (rawAddr sig : List Nat) (confs : List Confirmation) : List Confirmation :=
  match handleSignTransaction hashNib owners rawAddr sig confs with
  | Except.ok r => r.2
  | Except.error _ => confs

/-- A confirmation list whose owners all parse and whose signatures are
all non-empty. -/
def ValidConfs (hashNib : List Nat → Nat → Nat) (confs : List Confirmation) : Prop :=
  ∀ c ∈ confs, ∃ a, getAddress hashNib c.owner = Except.ok a

/-- Replace the two secret fields of every stored record by arbitrary
record-dependent values, leaving every other field alone. -/
def scrubRecord (f : DelegatedAccess → Option (List Nat))
    (g : DelegatedAccess → List Nat) (da : DelegatedAccess) : DelegatedAccess :=
  { da with delegatedShare := f da, walletApiKey := g da }

def scrubSecrets (f : DelegatedAccess → Option (List Nat))
    (g : DelegatedAccess → List Nat) (s : StoreState) : StoreState :=
  s.map (fun kv => (kv.1, scrubRecord f g kv.2))

/-! # Supporting lemmas -/

theorem toLowerAscii_idem (c : Nat) : toLowerAscii (toLowerAscii c) = toLowerAscii c := by
  unfold toLowerAscii
  repeat' split
  all_goals omega

theorem toLowerAscii_toUpperAscii_toLowerAscii (c : Nat) :
    toLowerAscii (toUpperAscii (toLowerAscii c)) = toLowerAscii c := by
  unfold toLowerAscii toUpperAscii
  repeat' split
  all_goals omega

theorem isHexCharCode_toLowerAscii (c : Nat) (h : isHexCharCode c = true) :
    isHexCharCode (toLowerAscii c) = true := by
  unfold isHexCharCode at *; unfold toLowerAscii
  split
  all_goals simp_all
  all_goals omega

theorem isHexCharCode_toUpperAscii (c : Nat) (h : isHexCharCode c = true) :
    isHexCharCode (toUpperAscii c) = true := by
  unfold isHexCharCode at *; unfold toUpperAscii
  split
  all_goals simp_all
  all_goals omega

theorem mapSet_nil [BEq κ] (k : κ) (v : ν) : mapSet k v ([] : List (κ × ν)) = [(k, v)] :=
  rfl

theorem mapSet_cons [BEq κ] (k k' : κ) (v v' : ν) (rest : List (κ × ν)) :
    mapSet k v ((k', v') :: rest) =
      if k' == k then (k', v) :: rest else (k', v') :: mapSet k v rest :=
  rfl

theorem mapWithIndex_length (f : Nat → α → β) (i : Nat) (l : List α) :
    (mapWithIndex f i l).length = l.length := by
  induction l generalizing i with
  | nil => rfl
  | cons x xs ih => simp [mapWithIndex, ih]

theorem mem_mapWithIndex (f : Nat → α → β) (i : Nat) (l : List α) (b : β)
    (hb : b ∈ mapWithIndex f i l) : ∃ j a, a ∈ l ∧ b = f j a := by
  induction l generalizing i with
  | nil => simp [mapWithIndex] at hb
  | cons x xs ih =>
    simp only [mapWithIndex, List.mem_cons] at hb
    rcases hb with hb | hb
    · exact ⟨i, x, List.mem_cons_self x xs, hb⟩
    · obtain ⟨j, a, ha, hba⟩ := ih (i + 1) hb
      exact ⟨j, a, List.mem_cons_of_mem x ha, hba⟩

theorem map_toLowerAscii_mapWithIndex (p : Nat → Prop) [DecidablePred p] (i : Nat)
    (l : List Nat) :
    (mapWithIndex (fun i c => if p i then toUpperAscii c else c) i (l.map toLowerAscii)).map
        toLowerAscii = l.map toLowerAscii := by
  induction l generalizing i with
  | nil => rfl
  | cons x xs ih =>
    simp only [List.map_cons, mapWithIndex]
    rw [ih (i + 1)]
    congr 1
    split
    · exact toLowerAscii_toUpperAscii_toLowerAscii x
    · exact toLowerAscii_idem x

theorem isAddress_elim (s : List Nat) (h : isAddress s = true) :
    ∃ body, s = 48 :: 120 :: body ∧ body.length = 40 ∧ ∀ c ∈ body, isHexCharCode c = true := by
  match s with
  | [] => simp [isAddress] at h
  | [c] => simp [isAddress] at h
  | c0 :: c1 :: body =>
    simp only [isAddress, Bool.and_eq_true, beq_iff_eq, decide_eq_true_eq,
      List.all_eq_true] at h
    exact ⟨body, by rw [h.1.1.1, h.1.1.2], h.1.2, h.2⟩

theorem isAddress_cons_iff (L : List Nat) :
    isAddress (48 :: 120 :: L) = true ↔
      (L.length = 40 ∧ ∀ c ∈ L, isHexCharCode c = true) := by
  simp [isAddress]

theorem isAddress_checksumAddress (hashNib : List Nat → Nat → Nat) (s : List Nat)
    (h : isAddress s = true) : isAddress (checksumAddress hashNib s) = true := by
  obtain ⟨body, hs, hlen, hhex⟩ := isAddress_elim s h
  subst hs
  simp only [checksumAddress, List.drop_succ_cons, List.drop_zero]
  rw [isAddress_cons_iff]
  refine ⟨by rw [mapWithIndex_length, List.length_map]; exact hlen, ?_⟩
  intro c hc
  obtain ⟨j, a, ha, hca⟩ := mem_mapWithIndex _ _ _ _ hc
  obtain ⟨x, hx, hax⟩ := List.mem_map.mp ha
  subst hca
  rw [← hax]
  split
  · exact isHexCharCode_toUpperAscii _ (isHexCharCode_toLowerAscii _ (hhex x hx))
  · exact isHexCharCode_toLowerAscii _ (hhex x hx)

theorem checksumAddress_checksumAddress (hashNib : List Nat → Nat → Nat) (s : List Nat) :
    checksumAddress hashNib (checksumAddress hashNib s) = checksumAddress hashNib s := by
  have h := map_toLowerAscii_mapWithIndex
    (fun i => 8 ≤ hashNib ((s.drop 2).map toLowerAscii) i) 0 (s.drop 2)
  simp only [checksumAddress, List.drop_succ_cons, List.drop_zero]
  simp only [h]

theorem getAddress_ok_idem (hashNib : List Nat → Nat → Nat) (a b : List Nat)
    (h : getAddress hashNib a = Except.ok b) : getAddress hashNib b = Except.ok b := by
  unfold getAddress at h
  by_cases hv : isAddress a = true
  · rw [if_pos hv] at h
    cases h
    unfold getAddress
    rw [if_pos (isAddress_checksumAddress hashNib a hv),
      checksumAddress_checksumAddress]
  · rw [if_neg hv] at h
    cases h

theorem getAddress_ok_isAddress (hashNib : List Nat → Nat → Nat) (a b : List Nat)
    (h : getAddress hashNib a = Except.ok b) : isAddress b = true := by
  unfold getAddress at h
  by_cases hv : isAddress a = true
  · rw [if_pos hv] at h
    cases h
    exact isAddress_checksumAddress hashNib a hv
  · rw [if_neg hv] at h
    cases h

theorem hexDigitVal_lt (c : Nat) : hexDigitVal c < 16 := by
  unfold hexDigitVal
  repeat' split
  all_goals omega

theorem hexDigitVal_toLowerAscii (c : Nat) :
    hexDigitVal (toLowerAscii c) = hexDigitVal c := by
  unfold hexDigitVal toLowerAscii
  repeat' split
  all_goals omega

theorem isLowerHexCharCode_toLowerAscii (c : Nat) (h : isHexCharCode c = true) :
    isLowerHexCharCode (toLowerAscii c) = true := by
  unfold isHexCharCode at h; unfold isLowerHexCharCode toLowerAscii
  split
  all_goals simp_all
  all_goals omega

theorem hexDigitVal_inj (c d : Nat) (hc : isLowerHexCharCode c = true)
    (hd : isLowerHexCharCode d = true) (h : hexDigitVal c = hexDigitVal d) : c = d := by
  unfold isLowerHexCharCode at hc hd
  unfold hexDigitVal at h
  simp only [decide_eq_true_eq] at hc hd
  revert h
  repeat' split
  all_goals omega

theorem hexVal_foldl_inj (s t : List Nat) (a b : Nat)
    (hs : ∀ c ∈ s, isLowerHexCharCode c = true) (ht : ∀ c ∈ t, isLowerHexCharCode c = true)
    (hlen : s.length = t.length)
    (h : s.foldl (fun acc c => 16 * acc + hexDigitVal c) a =
      t.foldl (fun acc c => 16 * acc + hexDigitVal c) b) : a = b ∧ s = t := by
  induction s generalizing t a b with
  | nil =>
    cases t with
    | nil => exact ⟨h, rfl⟩
    | cons y ys => simp at hlen
  | cons x xs ih =>
    cases t with
    | nil => simp at hlen
    | cons y ys =>
      simp only [List.foldl_cons] at h
      simp only [List.length_cons, Nat.succ.injEq] at hlen
      obtain ⟨hacc, htail⟩ := ih ys _ _
        (fun c hc => hs c (List.mem_cons_of_mem x hc))
        (fun c hc => ht c (List.mem_cons_of_mem y hc)) hlen h
      have hx := hexDigitVal_lt x
      have hy := hexDigitVal_lt y
      have hxy : hexDigitVal x = hexDigitVal y ∧ a = b := by omega
      have := hexDigitVal_inj x y (hs x (List.mem_cons_self x xs))
        (ht y (List.mem_cons_self y ys)) hxy.1
      exact ⟨hxy.2, by rw [this, htail]⟩

theorem mapGet_mapSet_self [BEq κ] [LawfulBEq κ] (k : κ) (v : ν) (m : List (κ × ν)) :
    mapGet k (mapSet k v m) = some v := by
  induction m with
  | nil => simp [mapSet, mapGet]
  | cons p rest ih =>
    obtain ⟨k', v'⟩ := p
    by_cases hk : (k' == k) = true
    · simp only [mapSet, if_pos hk, mapGet]
    · simp only [mapSet, if_neg hk, mapGet, if_neg hk]
      exact ih

theorem mapGet_mapSet_ne [BEq κ] [LawfulBEq κ] (k k0 : κ) (v : ν) (m : List (κ × ν))
    (hne : k0 ≠ k) : mapGet k0 (mapSet k v m) = mapGet k0 m := by
  have hne' : (k == k0) = false := by
    simp only [beq_eq_false_iff_ne, ne_eq]
    exact fun h => hne h.symm
  induction m with
  | nil =>
    simp only [mapSet, mapGet]
    rw [if_neg (by simp [hne'])]
  | cons p rest ih =>
    obtain ⟨k', v'⟩ := p
    by_cases hk : (k' == k) = true
    · have hkk : k' = k := by simp_all
      have hk0 : (k' == k0) = false := by rw [hkk]; exact hne'
      simp only [mapSet, if_pos hk, mapGet, hk0, Bool.false_eq_true, if_false]
    · simp only [mapSet, if_neg hk, mapGet]
      by_cases hk0 : (k' == k0) = true
      · rw [if_pos hk0, if_pos hk0]
      · rw [if_neg hk0, if_neg hk0]
        exact ih

/-! # Claim theorems -/

/-- C7: address normalization is idempotent, normalize (normalize a) =
normalize a for every valid address a, and every malformed input (one
that is not a 0x-prefixed 40-hex-digit identifier) fails with
InvalidAddress instead of returning an address. -/
theorem address_normalize_idempotent_and_strict :
    (∀ hashNib a b, getAddress hashNib a = Except.ok b →
      getAddress hashNib b = Except.ok b)
    ∧ (∀ hashNib s, isAddress s = false →
      getAddress hashNib s = Except.error "InvalidAddress") := by
  constructor
  · exact getAddress_ok_idem
  · intro hashNib s h
    unfold getAddress
    rw [if_neg (by simp [h])]

/-- Witness for C7 at a concrete valid and a concrete malformed input. -/
theorem address_normalize_idempotent_and_strict_witness :
    getAddress (fun _ _ => 0) (48 :: 120 :: List.replicate 40 97) =
        Except.ok (48 :: 120 :: List.replicate 40 97)
    ∧ getAddress (fun _ _ => 0) [48] = Except.error "InvalidAddress" := by
  constructor
  · exact address_normalize_idempotent_and_strict.1 (fun _ _ => 0)
      (48 :: 120 :: List.replicate 40 97) (48 :: 120 :: List.replicate 40 97) (by rfl)
  · exact address_normalize_idempotent_and_strict.2 (fun _ _ => 0) [48] (by rfl)

/-- C5: executing a transaction with fewer confirmations than the
threshold fails fast with the threshold-not-met error; no bundle is
assembled and nothing is submitted to the ledger (the ledger and the
transaction state are unchanged). -/
theorem execute_below_threshold_fails_fast :
    ∀ hashNib threshold confs ledger, confs.length < threshold →
      handleExecuteTransaction hashNib threshold confs ledger =
        Except.ok (ExecResult.thresholdNotMet threshold confs.length, ledger) := by
  intro hashNib t confs ledger h
  unfold handleExecuteTransaction
  rw [if_pos h]

/-- Witness for C5: one confirmation, threshold two. -/
theorem execute_below_threshold_fails_fast_witness :
    handleExecuteTransaction (fun _ _ => 0) 2 [⟨[48], [1]⟩] [] =
      Except.ok (ExecResult.thresholdNotMet 2 1, []) :=
  execute_below_threshold_fails_fast (fun _ _ => 0) 2 [⟨[48], [1]⟩] [] (by decide)

theorem triggerDelegationLoop_all_fail (responses : List (Option HttpResponse))
    (h : ∀ r ∈ responses, ∃ hr, r = some hr ∧ hr.ok = false) :
    triggerDelegationLoop responses = allEndpointsFailedResult := by
  induction responses with
  | nil => rfl
  | cons r rest ih =>
    obtain ⟨hr, hsome, hok⟩ := h r (List.mem_cons_self r rest)
    subst hsome
    unfold triggerDelegationLoop
    rw [if_neg (by simp [hok])]
    exact ih (fun r0 hr0 => h r0 (List.mem_cons_of_mem _ hr0))

/-- C8: when every candidate delegation endpoint responds 404,
triggerDelegation does not throw: it returns a result with success
false and requiresClientSide true. -/
theorem triggerDelegation_all_404_is_not_an_error :
    ∀ creds responses,
      (∀ r ∈ responses, ∃ hr, r = some hr ∧ hr.ok = false ∧ hr.status = 404) →
      triggerDelegation (some creds) responses = Except.ok allEndpointsFailedResult ∧
        allEndpointsFailedResult.success = false ∧
        allEndpointsFailedResult.requiresClientSide = true := by
  intro creds responses h
  refine ⟨?_, rfl, rfl⟩
  unfold triggerDelegation
  rw [triggerDelegationLoop_all_fail responses
    (fun r hr => by obtain ⟨x, h1, h2, _⟩ := h r hr; exact ⟨x, h1, h2⟩)]

/-- Witness for C8: the four candidate endpoints all answer 404. -/
theorem triggerDelegation_all_404_is_not_an_error_witness :
    triggerDelegation (some ⟨[101], [116]⟩)
        (List.replicate 4 (some ⟨false, 404, none, []⟩)) =
      Except.ok allEndpointsFailedResult ∧
      allEndpointsFailedResult.success = false ∧
      allEndpointsFailedResult.requiresClientSide = true :=
  triggerDelegation_all_404_is_not_an_error ⟨[101], [116]⟩
    (List.replicate 4 (some ⟨false, 404, none, []⟩))
    (by intro r hr; rw [List.eq_of_mem_replicate hr]; exact ⟨_, rfl, rfl, rfl⟩)

/-- C1: decryptMaterials returns plaintext only when both RSA-OAEP key
unwraps and both AES-256-GCM authenticated decryptions succeed, and a
GCM open that fails (the authentication tag does not verify) on either
envelope makes the whole call throw, so no plaintext, not even a
partial one, is returned. -/
theorem decryptMaterials_two_stage_all_or_nothing :
    (∀ p pem share apiKeyEnc out,
      decryptMaterials p pem share apiKeyEnc = Except.ok out →
      ∃ shareKey apiKeyKey shareBuf,
        rsaOaepDecryptEk p (replaceEscapedNewlines pem) share.ek = some shareKey ∧
        rsaOaepDecryptEk p (replaceEscapedNewlines pem) apiKeyEnc.ek = some apiKeyKey ∧
        decryptAesGcm p shareKey share.iv share.ct share.tag = some shareBuf ∧
        decryptAesGcm p apiKeyKey apiKeyEnc.iv apiKeyEnc.ct apiKeyEnc.tag = some out.2 ∧
        p.jsonParse shareBuf = some out.1)
    ∧ (∀ p pem share apiKeyEnc shareKey,
      rsaOaepDecryptEk p (replaceEscapedNewlines pem) share.ek = some shareKey →
      decryptAesGcm p shareKey share.iv share.ct share.tag = none →
      decryptMaterials p pem share apiKeyEnc =
        Except.error "Failed to decrypt delegation materials")
    ∧ (∀ p pem share apiKeyEnc apiKeyKey,
      rsaOaepDecryptEk p (replaceEscapedNewlines pem) apiKeyEnc.ek = some apiKeyKey →
      decryptAesGcm p apiKeyKey apiKeyEnc.iv apiKeyEnc.ct apiKeyEnc.tag = none →
      decryptMaterials p pem share apiKeyEnc =
        Except.error "Failed to decrypt delegation materials") := by
  refine ⟨?_, ?_, ?_⟩
  · intro p pem share apiKeyEnc out h
    unfold decryptMaterials at h
    split at h
    · exact Except.noConfusion h
    · rename_i shareKey h1
      split at h
      · exact Except.noConfusion h
      · rename_i apiKeyKey h2
        split at h
        · exact Except.noConfusion h
        · rename_i shareBuf h3
          split at h
          · exact Except.noConfusion h
          · rename_i apiKeyBuf h4
            split at h
            · exact Except.noConfusion h
            · rename_i parsed h5
              cases h
              exact ⟨shareKey, apiKeyKey, shareBuf, h1, h2, h3, h4, h5⟩
  · intro p pem share apiKeyEnc shareKey h1 h3
    unfold decryptMaterials
    split
    · rfl
    · rename_i shareKey0 h1'
      rw [h1] at h1'
      cases h1'
      split
      · rfl
      · rename_i apiKeyKey0 h2'
        split
        · rfl
        · rename_i shareBuf h3'
          rw [h3] at h3'
          cases h3'
  · intro p pem share apiKeyEnc apiKeyKey h2 h4
    unfold decryptMaterials
    split
    · rfl
    · rename_i shareKey h1'
      split
      · rfl
      · rename_i apiKeyKey0 h2'
        rw [h2] at h2'
        cases h2'
        split
        · rfl
        · rename_i shareBuf h3'
          split
          · rfl
          · rename_i apiKeyBuf h4'
            rw [h4] at h4'
            cases h4'

/-- Witness for C1 with concrete primitives whose GCM open succeeds
exactly when the tag is the singleton 1. -/
theorem decryptMaterials_two_stage_all_or_nothing_witness :
    (∃ shareKey apiKeyKey shareBuf,
      rsaOaepDecryptEk ⟨fun _ ek => some ek, fun _ _ ct tag => if tag = [1] then some ct else none, fun x => x, fun x => some x⟩ (replaceEscapedNewlines []) (⟨[5], [0], [7], [1]⟩ : EncryptedPayload).ek = some shareKey ∧
      rsaOaepDecryptEk ⟨fun _ ek => some ek, fun _ _ ct tag => if tag = [1] then some ct else none, fun x => x, fun x => some x⟩ (replaceEscapedNewlines []) (⟨[5], [0], [7], [1]⟩ : EncryptedPayload).ek = some apiKeyKey ∧
      decryptAesGcm ⟨fun _ ek => some ek, fun _ _ ct tag => if tag = [1] then some ct else none, fun x => x, fun x => some x⟩ shareKey [0] [7] [1] = some shareBuf ∧
      decryptAesGcm ⟨fun _ ek => some ek, fun _ _ ct tag => if tag = [1] then some ct else none, fun x => x, fun x => some x⟩ apiKeyKey [0] [7] [1] = some (([7], [7]) : List Nat × List Nat).2 ∧
      (⟨fun _ ek => some ek, fun _ _ ct tag => if tag = [1] then some ct else none, fun x => x, fun x => some x⟩ : CryptoPrimitives).jsonParse shareBuf = some (([7], [7]) : List Nat × List Nat).1)
    ∧ decryptMaterials ⟨fun _ ek => some ek, fun _ _ ct tag => if tag = [1] then some ct else none, fun x => x, fun x => some x⟩ [] ⟨[5], [0], [7], [2]⟩ ⟨[5], [0], [7], [1]⟩ =
        Except.error "Failed to decrypt delegation materials"
    ∧ decryptMaterials ⟨fun _ ek => some ek, fun _ _ ct tag => if tag = [1] then some ct else none, fun x => x, fun x => some x⟩ [] ⟨[5], [0], [7], [1]⟩ ⟨[5], [0], [7], [2]⟩ =
        Except.error "Failed to decrypt delegation materials" := by
  refine ⟨?_, ?_, ?_⟩
  · exact decryptMaterials_two_stage_all_or_nothing.1 _ [] ⟨[5], [0], [7], [1]⟩
      ⟨[5], [0], [7], [1]⟩ ([7], [7]) (by rfl)
  · exact decryptMaterials_two_stage_all_or_nothing.2.1 _ [] ⟨[5], [0], [7], [2]⟩
      ⟨[5], [0], [7], [1]⟩ [5] (by rfl) (by simp [decryptAesGcm])
  · exact decryptMaterials_two_stage_all_or_nothing.2.2 _ [] ⟨[5], [0], [7], [1]⟩
      ⟨[5], [0], [7], [2]⟩ [5] (by rfl) (by simp [decryptAesGcm])

/-- C4 (evidence for a code bug): the webhook signature check is inert.
verifyWebhookSignature accepts every (payload, signature, secret)
triple, and processDelegationWebhook behaves identically with and
without a configured webhook secret, so an envelope from a webhook
whose transport signature is invalid is still decrypted; the pipeline
never refuses to decrypt, contradicting the documented requirement
that a failed verification must prevent decryption. -/
theorem webhook_signature_check_is_inert :
    (∀ payload signature secret,
      verifyWebhookSignature payload signature secret = true)
    ∧ (∀ p f w pem secret,
      processDelegationWebhook p f w pem (some secret) =
        processDelegationWebhook p f w pem none) := by
  exact ⟨fun _ _ _ => rfl, fun _ _ _ _ _ => rfl⟩

theorem countByEvent_cons (e k0 : List Nat) (v0 : DelegatedAccess) (s : StoreState) :
    countByEvent e ((k0, v0) :: s) =
      countByEvent e s + (if v0.eventId == some e then 1 else 0) := by
  unfold countByEvent getAllDelegatedAccesses
  rw [List.map_cons, List.countP_cons]

theorem getDelegatedAccessByEventId_none_iff (e : List Nat) (s : StoreState) :
    getDelegatedAccessByEventId e s = none ↔ countByEvent e s = 0 := by
  unfold getDelegatedAccessByEventId countByEvent
  rw [List.find?_eq_none, List.countP_eq_zero]

theorem countByEvent_pos_of_find (e : List Nat) (s : StoreState) (r : DelegatedAccess)
    (h : getDelegatedAccessByEventId e s = some r) : 1 ≤ countByEvent e s := by
  unfold getDelegatedAccessByEventId at h
  unfold countByEvent
  have hmem : r ∈ getAllDelegatedAccesses s := List.mem_of_find?_eq_some h
  have hpred := List.find?_some h
  exact List.countP_pos.mpr ⟨r, hmem, hpred⟩

theorem countByEvent_mapSet_le (e k : List Nat) (v : DelegatedAccess) (s : StoreState) :
    countByEvent e (mapSet k v s) ≤
      countByEvent e s + (if v.eventId == some e then 1 else 0) := by
  induction s with
  | nil =>
    rw [mapSet_nil, countByEvent_cons]
  | cons kv rest ih =>
    obtain ⟨k', v'⟩ := kv
    by_cases hk : (k' == k) = true
    · rw [mapSet_cons, if_pos hk, countByEvent_cons, countByEvent_cons]
      omega
    · rw [mapSet_cons, if_neg hk, countByEvent_cons, countByEvent_cons]
      omega

theorem countByEvent_mapSet_pos (e k : List Nat) (v : DelegatedAccess) (s : StoreState)
    (hv : (v.eventId == some e) = true) : 1 ≤ countByEvent e (mapSet k v s) := by
  induction s with
  | nil =>
    rw [mapSet_nil, countByEvent_cons, hv]
    simp
  | cons kv rest ih =>
    obtain ⟨k', v'⟩ := kv
    by_cases hk : (k' == k) = true
    · rw [mapSet_cons, if_pos hk, countByEvent_cons, hv]
      simp
    · rw [mapSet_cons, if_neg hk, countByEvent_cons]
      omega

/-- C2: materializing a delegation event whose eventId already has a
DelegatedAccessRecord is a no-op returning the existing record with
the store unchanged, and under any replay the store holds exactly one
record for the processed eventId and at most one record per eventId. -/
theorem materialize_idempotent_per_event :
    (∀ mk e s r, getDelegatedAccessByEventId e s = some r →
      materialize mk e s = (r, s))
    ∧ (∀ mk e s, (∀ e0, (mk e0).eventId = some e0) →
      (∀ e0, countByEvent e0 s ≤ 1) →
      countByEvent e ((materialize mk e s).2) = 1 ∧
        (∀ e0, countByEvent e0 ((materialize mk e s).2) ≤ 1) ∧
        (materialize mk e ((materialize mk e s).2)).2 = (materialize mk e s).2) := by
  constructor
  · intro mk e s r h
    unfold materialize
    rw [h]
  · intro mk e s hmk hbound
    have second : ∀ s1 : StoreState, countByEvent e s1 = 1 →
        (materialize mk e s1).2 = s1 := by
      intro s1 h1
      unfold materialize
      cases hf : getDelegatedAccessByEventId e s1 with
      | some r => rfl
      | none =>
        rw [(getDelegatedAccessByEventId_none_iff e s1).mp hf] at h1
        cases h1
    cases hfind : getDelegatedAccessByEventId e s with
    | some r =>
      have h1 : materialize mk e s = (r, s) := by unfold materialize; rw [hfind]
      rw [h1]
      have hcnt : countByEvent e s = 1 :=
        Nat.le_antisymm (hbound e) (countByEvent_pos_of_find e s r hfind)
      exact ⟨hcnt, hbound, second s hcnt⟩
    | none =>
      have hc0 : countByEvent e s = 0 :=
        (getDelegatedAccessByEventId_none_iff e s).mp hfind
      have h1 : materialize mk e s = (mk e, mapSet (mk e).id (mk e) s) := by
        unfold materialize createDelegatedAccess
        rw [hfind]
      rw [h1]
      dsimp only
      have hve : ((mk e).eventId == some e) = true := by rw [hmk e]; exact beq_self_eq_true _
      have hle := countByEvent_mapSet_le e (mk e).id (mk e) s
      rw [if_pos hve, hc0] at hle
      have hpos := countByEvent_mapSet_pos e (mk e).id (mk e) s hve
      have hcnt : countByEvent e (mapSet (mk e).id (mk e) s) = 1 := by omega
      refine ⟨hcnt, ?_, second _ hcnt⟩
      intro e0
      by_cases he0 : e0 = e
      · rw [he0, hcnt]
      · have hne : ((mk e).eventId == some e0) = false := by
          rw [hmk e]
          simp only [beq_eq_false_iff_ne, ne_eq, Option.some.injEq]
          exact fun hcontra => he0 hcontra.symm
        have hle0 := countByEvent_mapSet_le e0 (mk e).id (mk e) s
        rw [hne] at hle0
        simp only [Bool.false_eq_true, if_false] at hle0
        have := hbound e0
        omega

/-- Witness for C2: a fresh store, then a replayed eventId. -/
theorem materialize_idempotent_per_event_witness :
    materialize (fun e => ⟨[1], [], [], [], [], [], [], none, [], [], [], some e⟩) [9]
        [([1], ⟨[1], [], [], [], [], [], [], none, [], [], [], some [9]⟩)] =
      (⟨[1], [], [], [], [], [], [], none, [], [], [], some [9]⟩,
        [([1], ⟨[1], [], [], [], [], [], [], none, [], [], [], some [9]⟩)])
    ∧ countByEvent [9]
        ((materialize (fun e => ⟨[1], [], [], [], [], [], [], none, [], [], [], some e⟩)
          [9] []).2) = 1
    ∧ (materialize (fun e => ⟨[1], [], [], [], [], [], [], none, [], [], [], some e⟩) [9]
        ((materialize (fun e => ⟨[1], [], [], [], [], [], [], none, [], [], [], some e⟩)
          [9] []).2)).2 =
      (materialize (fun e => ⟨[1], [], [], [], [], [], [], none, [], [], [], some e⟩)
        [9] []).2 := by
  refine ⟨?_, ?_, ?_⟩
  · exact materialize_idempotent_per_event.1
      (fun e => ⟨[1], [], [], [], [], [], [], none, [], [], [], some e⟩) [9]
      [([1], ⟨[1], [], [], [], [], [], [], none, [], [], [], some [9]⟩)]
      ⟨[1], [], [], [], [], [], [], none, [], [], [], some [9]⟩ (by rfl)
  · exact (materialize_idempotent_per_event.2
      (fun e => ⟨[1], [], [], [], [], [], [], none, [], [], [], some e⟩) [9] []
      (fun e0 => rfl) (fun e0 => Nat.zero_le 1)).1
  · exact (materialize_idempotent_per_event.2
      (fun e => ⟨[1], [], [], [], [], [], [], none, [], [], [], some e⟩) [9] []
      (fun e0 => rfl) (fun e0 => Nat.zero_le 1)).2.2

theorem someThrow_sameOwnerCheck (hashNib : List Nat → Nat → Nat) (cur : List Nat)
    (confs : List Confirmation) (hv : ValidConfs hashNib confs) :
    someThrow (sameOwnerCheck hashNib cur) confs =
      Except.ok (confs.any
        (fun c => ownerKey hashNib c == some (cur.map toLowerAscii))) := by
  induction confs with
  | nil => rfl
  | cons c rest ih =>
    obtain ⟨a, ha⟩ := hv c (List.mem_cons_self c rest)
    have hkey : ownerKey hashNib c = some (a.map toLowerAscii) := by
      unfold ownerKey; rw [ha]
    have hcheck : sameOwnerCheck hashNib cur c =
        Except.ok (a.map toLowerAscii == cur.map toLowerAscii) := by
      unfold sameOwnerCheck; rw [ha]
    have hpred : (ownerKey hashNib c == some (cur.map toLowerAscii)) =
        (a.map toLowerAscii == cur.map toLowerAscii) := by
      rw [hkey]; rfl
    unfold someThrow
    rw [hcheck, List.any_cons, hpred]
    cases hb : (a.map toLowerAscii == cur.map toLowerAscii) with
    | true => rfl
    | false =>
      rw [Bool.false_or]
      exact ih (fun c0 hc0 => hv c0 (List.mem_cons_of_mem c hc0))

theorem countFor_eq_zero_of_any_false (hashNib : List Nat → Nat → Nat) (k : List Nat)
    (confs : List Confirmation)
    (h : confs.any (fun c => ownerKey hashNib c == some k) = false) :
    countFor hashNib k confs = 0 := by
  unfold countFor
  rw [List.countP_eq_zero]
  intro c hc
  have := List.any_eq_false.mp h c hc
  simp_all

theorem any_true_of_countFor_pos (hashNib : List Nat → Nat → Nat) (k : List Nat)
    (confs : List Confirmation) (h : 1 ≤ countFor hashNib k confs) :
    confs.any (fun c => ownerKey hashNib c == some k) = true := by
  have hpos : 0 < confs.countP (fun c => ownerKey hashNib c == some k) := by
    unfold countFor at h; omega
  obtain ⟨c, hc, hp⟩ := List.countP_pos.mp hpos
  exact List.any_eq_true.mpr ⟨c, hc, hp⟩

theorem countFor_append_one (hashNib : List Nat → Nat → Nat) (k : List Nat)
    (confs : List Confirmation) (c0 : Confirmation) :
    countFor hashNib k (confs ++ [c0]) =
      countFor hashNib k confs + (if ownerKey hashNib c0 == some k then 1 else 0) := by
  unfold countFor
  rw [List.countP_append, List.countP_cons, List.countP_nil, Nat.zero_add]

theorem nextConfs_cases (hashNib : List Nat → Nat → Nat) (owners : List (List Nat))
    (raw sig : List Nat) (confs : List Confirmation) (hv : ValidConfs hashNib confs) :
    nextConfs hashNib owners raw sig confs = confs ∨
      (∃ cur, getAddress hashNib raw = Except.ok cur ∧
        confs.any (fun c => ownerKey hashNib c == some (cur.map toLowerAscii)) = false ∧
        nextConfs hashNib owners raw sig confs = confs ++ [⟨cur, sig⟩]) := by
  unfold nextConfs handleSignTransaction
  cases hga : getAddress hashNib raw with
  | error e => left; rfl
  | ok cur =>
    dsimp only
    by_cases hown : (owners.contains cur) = false
    · rw [if_pos hown]; left; rfl
    · rw [if_neg hown]
      rw [someThrow_sameOwnerCheck hashNib cur confs hv]
      cases hany : confs.any
          (fun c => ownerKey hashNib c == some (cur.map toLowerAscii)) with
      | true => left; rfl
      | false =>
        by_cases hsig : sig = []
        · rw [if_pos hsig]; left; rfl
        · rw [if_neg hsig]; right; exact ⟨cur, rfl, hany, rfl⟩

theorem nextConfs_step (hashNib : List Nat → Nat → Nat) (owners : List (List Nat))
    (raw sig : List Nat) (confs : List Confirmation) (hv : ValidConfs hashNib confs) :
    ValidConfs hashNib (nextConfs hashNib owners raw sig confs)
    ∧ ∀ k, (countFor hashNib k confs ≤ 1 →
          countFor hashNib k (nextConfs hashNib owners raw sig confs) ≤ 1)
        ∧ (countFor hashNib k confs = 1 →
          countFor hashNib k (nextConfs hashNib owners raw sig confs) = 1) := by
  rcases nextConfs_cases hashNib owners raw sig confs hv with hm | ⟨cur, hga, hany, hm⟩
  · rw [hm]
    exact ⟨hv, fun k => ⟨id, id⟩⟩
  · rw [hm]
    have hcur : getAddress hashNib cur = Except.ok cur := getAddress_ok_idem hashNib raw cur hga
    have hc0key : ownerKey hashNib ⟨cur, sig⟩ = some (cur.map toLowerAscii) := by
      unfold ownerKey
      rw [hcur]
    constructor
    · intro c hc
      rcases List.mem_append.mp hc with hc | hc
      · exact hv c hc
      · have : c = ⟨cur, sig⟩ := List.mem_singleton.mp hc
        rw [this]
        exact ⟨cur, hcur⟩
    · intro k
      rw [countFor_append_one, hc0key]
      by_cases hk : ((cur.map toLowerAscii : List Nat) == k) = true
      · have hkeq : cur.map toLowerAscii = k := by simp_all
        have h0 : countFor hashNib k confs = 0 := by
          rw [← hkeq]
          exact countFor_eq_zero_of_any_false hashNib _ confs hany
        have hite : (some (cur.map toLowerAscii) == some k) = true := by
          rw [hkeq]; exact beq_self_eq_true _
        rw [hite, h0]
        simp
      · have hite : (some (cur.map toLowerAscii) == some k) = false := by
          simp_all
        rw [hite]
        simp

theorem applySignRequests_cons (hashNib : List Nat → Nat → Nat)
    (owners : List (List Nat)) (r : SignRequest) (rs : List SignRequest)
    (confs : List Confirmation) :
    applySignRequests hashNib owners (r :: rs) confs =
      applySignRequests hashNib owners rs
        (nextConfs hashNib owners r.rawAddr r.signature confs) := by
  unfold nextConfs
  cases h : handleSignTransaction hashNib owners r.rawAddr r.signature confs with
  | error e => simp only [applySignRequests, h]
  | ok p =>
    obtain ⟨out, confs2⟩ := p
    simp only [applySignRequests, h]

theorem applySignRequests_invariant (hashNib : List Nat → Nat → Nat)
    (owners : List (List Nat)) (reqs : List SignRequest) :
    ∀ confs, ValidConfs hashNib confs →
      ∀ k, (countFor hashNib k confs ≤ 1 →
          countFor hashNib k (applySignRequests hashNib owners reqs confs) ≤ 1)
        ∧ (countFor hashNib k confs = 1 →
          countFor hashNib k (applySignRequests hashNib owners reqs confs) = 1) := by
  induction reqs with
  | nil => exact fun confs _ k => ⟨id, id⟩
  | cons r rs ih =>
    intro confs hv k
    rw [applySignRequests_cons]
    obtain ⟨hv2, hstep⟩ := nextConfs_step hashNib owners r.rawAddr r.signature confs hv
    constructor
    · intro hle
      exact (ih _ hv2 k).1 ((hstep k).1 hle)
    · intro heq
      exact (ih _ hv2 k).2 ((hstep k).2 heq)

/-- C6: a confirm attempt by an owner who already has a confirmation
fails with the already-signed error and submits nothing, and across
any sequence of confirm attempts, once an owner holds exactly one
confirmation the set keeps exactly one confirmation for that owner. -/
theorem confirm_exactly_once :
    (∀ hashNib owners rawAddr sig confs cur,
      getAddress hashNib rawAddr = Except.ok cur →
      owners.contains cur = true →
      ValidConfs hashNib confs →
      1 ≤ countFor hashNib (cur.map toLowerAscii) confs →
      handleSignTransaction hashNib owners rawAddr sig confs =
        Except.ok (SignOutcome.alreadySigned, confs))
    ∧ (∀ hashNib owners reqs confs k,
      ValidConfs hashNib confs →
      countFor hashNib k confs = 1 →
      countFor hashNib k (applySignRequests hashNib owners reqs confs) = 1) := by
  constructor
  · intro hashNib owners rawAddr sig confs cur hga hown hv hcount
    unfold handleSignTransaction
    rw [hga]
    dsimp only
    rw [if_neg (by intro hcontra; rw [hown] at hcontra; exact Bool.noConfusion hcontra)]
    rw [someThrow_sameOwnerCheck hashNib cur confs hv]
    rw [any_true_of_countFor_pos hashNib (cur.map toLowerAscii) confs hcount]
  · intro hashNib owners reqs confs k hv hcount
    exact (applySignRequests_invariant hashNib owners reqs confs hv k).2 hcount

/-- Witness for C6: one owner, one existing confirmation, a duplicate
attempt both directly and through a replayed request sequence. -/
theorem confirm_exactly_once_witness :
    handleSignTransaction (fun _ _ => 0) [48 :: 120 :: List.replicate 40 97]
        (48 :: 120 :: List.replicate 40 97) [2]
        [⟨48 :: 120 :: List.replicate 40 97, [1]⟩] =
      Except.ok (SignOutcome.alreadySigned, [⟨48 :: 120 :: List.replicate 40 97, [1]⟩])
    ∧ countFor (fun _ _ => 0) ((48 :: 120 :: List.replicate 40 97).map toLowerAscii)
        (applySignRequests (fun _ _ => 0) [48 :: 120 :: List.replicate 40 97]
          [⟨48 :: 120 :: List.replicate 40 97, [2]⟩]
          [⟨48 :: 120 :: List.replicate 40 97, [1]⟩]) = 1 := by
  constructor
  · exact confirm_exactly_once.1 (fun _ _ => 0) [48 :: 120 :: List.replicate 40 97]
      (48 :: 120 :: List.replicate 40 97) [2]
      [⟨48 :: 120 :: List.replicate 40 97, [1]⟩] (48 :: 120 :: List.replicate 40 97)
      (by rfl) (by decide)
      (by
        intro c hc
        rw [List.mem_singleton.mp hc]
        exact ⟨48 :: 120 :: List.replicate 40 97, by rfl⟩)
      (by decide)
  · exact confirm_exactly_once.2 (fun _ _ => 0) [48 :: 120 :: List.replicate 40 97]
      [⟨48 :: 120 :: List.replicate 40 97, [2]⟩]
      [⟨48 :: 120 :: List.replicate 40 97, [1]⟩]
      ((48 :: 120 :: List.replicate 40 97).map toLowerAscii)
      (by
        intro c hc
        rw [List.mem_singleton.mp hc]
        exact ⟨48 :: 120 :: List.replicate 40 97, by rfl⟩)
      (by decide)

theorem getAllDelegatedAccesses_scrubSecrets (f : DelegatedAccess → Option (List Nat))
    (g : DelegatedAccess → List Nat) (s : StoreState) :
    getAllDelegatedAccesses (scrubSecrets f g s) =
      (getAllDelegatedAccesses s).map (scrubRecord f g) := by
  unfold getAllDelegatedAccesses scrubSecrets
  rw [List.map_map, List.map_map]
  rfl

theorem mapGet_scrubSecrets (f : DelegatedAccess → Option (List Nat))
    (g : DelegatedAccess → List Nat) (id : List Nat) (s : StoreState) :
    mapGet id (scrubSecrets f g s) = (mapGet id s).map (scrubRecord f g) := by
  induction s with
  | nil => rfl
  | cons kv rest ih =>
    obtain ⟨k', v'⟩ := kv
    unfold scrubSecrets at ih ⊢
    rw [List.map_cons]
    by_cases hk : (k' == id) = true
    · unfold mapGet
      rw [if_pos hk, if_pos hk]
      rfl
    · unfold mapGet
      rw [if_neg hk, if_neg hk]
      exact ih

theorem applyQueryFilter_scrubbed (f : DelegatedAccess → Option (List Nat))
    (g : DelegatedAccess → List Nat) (field : DelegatedAccess → List Nat)
    (hf : ∀ da, field (scrubRecord f g da) = field da) (q : Option (List Nat))
    (l : List DelegatedAccess) :
    applyQueryFilter field q (l.map (scrubRecord f g)) =
      (applyQueryFilter field q l).map (scrubRecord f g) := by
  cases q with
  | none => rfl
  | some v =>
    by_cases hv : v = []
    · simp [applyQueryFilter, hv]
    · simp only [applyQueryFilter, if_neg hv]
      rw [List.filter_map]
      congr 1
      refine List.filter_congr ?_
      intro da _
      simp only [Function.comp_apply, hf da]

/-- C9: the delegated-access read endpoints never expose the decrypted
signing material: the list GET, the by-id GET and the PATCH responses
are built from the sanitized shape, which has no delegatedShare and no
walletApiKey field, and replacing those two fields of every stored
record by arbitrary values leaves all three responses unchanged. -/
theorem routes_never_expose_secrets :
    ∀ f g q id bodyStatus (s : StoreState),
      getDelegatedAccessesRoute q (scrubSecrets f g s) = getDelegatedAccessesRoute q s
      ∧ getDelegatedAccessByIdRoute id (scrubSecrets f g s) =
          getDelegatedAccessByIdRoute id s
      ∧ (patchDelegatedAccessByIdRoute id bodyStatus (scrubSecrets f g s)).1 =
          (patchDelegatedAccessByIdRoute id bodyStatus s).1 := by
  intro f g q id bodyStatus s
  refine ⟨?_, ?_, ?_⟩
  · unfold getDelegatedAccessesRoute
    rw [getAllDelegatedAccesses_scrubSecrets,
      applyQueryFilter_scrubbed f g (fun da => da.vaultId) (fun da => rfl),
      applyQueryFilter_scrubbed f g (fun da => da.walletId) (fun da => rfl),
      applyQueryFilter_scrubbed f g (fun da => da.delegateEmail) (fun da => rfl),
      List.map_map]
    rfl
  · unfold getDelegatedAccessByIdRoute getDelegatedAccess
    rw [mapGet_scrubSecrets]
    cases mapGet id s with
    | none => rfl
    | some da => rfl
  · unfold patchDelegatedAccessByIdRoute getDelegatedAccess updateDelegatedAccess
    rw [mapGet_scrubSecrets]
    cases mapGet id s with
    | none => rfl
    | some da => rfl

/-- C10: PATCH modifies at most the status field of the addressed
record: the stored record keeps every other field, an absent or falsy
body status keeps the existing status, other records are untouched,
and a non-existent id leaves the store entirely unchanged. -/
theorem patch_updates_only_status :
    ∀ id bodyStatus (s : StoreState),
      (getDelegatedAccess id s = none →
        patchDelegatedAccessByIdRoute id bodyStatus s = (IdRouteResponse.notFound, s))
      ∧ (∀ da, getDelegatedAccess id s = some da →
        ∃ ns, patchDelegatedAccessByIdRoute id bodyStatus s =
            (IdRouteResponse.ok (sanitizeDelegatedAccess { da with status := ns }),
              mapSet id { da with status := ns } s)
          ∧ getDelegatedAccess id (patchDelegatedAccessByIdRoute id bodyStatus s).2 =
              some { da with status := ns }
          ∧ ((bodyStatus = none ∨ bodyStatus = some []) → ns = da.status)
          ∧ ∀ k, k ≠ id →
              getDelegatedAccess k (patchDelegatedAccessByIdRoute id bodyStatus s).2 =
                getDelegatedAccess k s) := by
  intro id bodyStatus s
  constructor
  · intro h
    unfold patchDelegatedAccessByIdRoute
    rw [h]
  · intro da h
    have hpatch : patchDelegatedAccessByIdRoute id bodyStatus s =
        (IdRouteResponse.ok (sanitizeDelegatedAccess
            { da with status := match bodyStatus with
              | some v => if v = [] then da.status else v
              | none => da.status }),
          mapSet id { da with status := match bodyStatus with
              | some v => if v = [] then da.status else v
              | none => da.status } s) := by
      unfold getDelegatedAccess at h
      unfold patchDelegatedAccessByIdRoute updateDelegatedAccess getDelegatedAccess
      rw [h]
    refine ⟨_, hpatch, ?_, ?_, ?_⟩
    · rw [hpatch]
      exact mapGet_mapSet_self id _ s
    · intro hb
      rcases hb with hb | hb
      · rw [hb]
      · rw [hb]
        simp
    · intro k hk
      rw [hpatch]
      exact mapGet_mapSet_ne id k _ s hk

theorem collectSignatures_ok (hashNib : List Nat → Nat → Nat)
    (confs : List Confirmation)
    (hv : ∀ c ∈ confs,
      (∃ a, getAddress hashNib c.owner = Except.ok a) ∧ c.signature ≠ []) :
    collectSignatures hashNib confs =
      Except.ok (confs.map (fun c => (normOwner hashNib c, c.signature))) := by
  induction confs with
  | nil => rfl
  | cons c rest ih =>
    obtain ⟨⟨a, ha⟩, hsig⟩ := hv c (List.mem_cons_self c rest)
    have hno : normOwner hashNib c = a := by unfold normOwner; rw [ha]
    unfold collectSignatures
    rw [ha, ih (fun c0 hc0 => hv c0 (List.mem_cons_of_mem c hc0))]
    dsimp only
    rw [if_neg hsig, List.map_cons, hno]

theorem mapSet_append_of_get_none [BEq κ] (k : κ) (v : ν) (m : List (κ × ν))
    (h : mapGet k m = none) : mapSet k v m = m ++ [(k, v)] := by
  induction m with
  | nil => rfl
  | cons p rest ih =>
    obtain ⟨k', v'⟩ := p
    unfold mapGet at h
    by_cases hk : (k' == k) = true
    · rw [if_pos hk] at h; cases h
    · rw [if_neg hk] at h
      rw [mapSet_cons, if_neg hk, ih h, List.cons_append]

theorem mapGet_cons [BEq κ] (k k' : κ) (v' : ν) (rest : List (κ × ν)) :
    mapGet k ((k', v') :: rest) = if k' == k then some v' else mapGet k rest :=
  rfl

theorem mapGet_append_of_none [BEq κ] (k : κ) (m1 m2 : List (κ × ν))
    (h : mapGet k m1 = none) : mapGet k (m1 ++ m2) = mapGet k m2 := by
  induction m1 with
  | nil => rfl
  | cons p rest ih =>
    obtain ⟨k', v'⟩ := p
    rw [mapGet_cons] at h
    by_cases hk : (k' == k) = true
    · rw [if_pos hk] at h; cases h
    · rw [if_neg hk] at h
      rw [List.cons_append, mapGet_cons, if_neg hk]
      exact ih h

theorem foldl_mapSet_append [BEq κ] [LawfulBEq κ] (key : α → κ) (val : α → ν) :
    ∀ (entries : List α) (m : List (κ × ν)),
      (∀ e ∈ entries, mapGet (key e) m = none) →
      (entries.map key).Nodup →
      entries.foldl (fun acc e => mapSet (key e) (val e) acc) m =
        m ++ entries.map (fun e => (key e, val e)) := by
  intro entries
  induction entries with
  | nil => intro m _ _; simp
  | cons e rest ih =>
    intro m hab hnd
    rw [List.map_cons, List.nodup_cons] at hnd
    rw [List.foldl_cons,
      mapSet_append_of_get_none (key e) (val e) m (hab e (List.mem_cons_self e rest)),
      ih (m ++ [(key e, val e)]) ?_ hnd.2, List.map_cons, List.append_assoc,
      List.singleton_append]
    intro e0 he0
    rw [mapGet_append_of_none (key e0) m _ (hab e0 (List.mem_cons_of_mem e he0))]
    unfold mapGet
    rw [if_neg ?_]
    · rfl
    · intro hcontra
      exact hnd.1 (beq_iff_eq.mp hcontra ▸ List.mem_map_of_mem key he0)

theorem addSignaturesToMap_eq (entries : List (List Nat × List Nat))
    (hnd : (entries.map (fun e => e.1.map toLowerAscii)).Nodup) :
    addSignaturesToMap entries =
      entries.map (fun e => (e.1.map toLowerAscii, e.2)) := by
  unfold addSignaturesToMap
  have h := foldl_mapSet_append (fun e : List Nat × List Nat => e.1.map toLowerAscii)
    (fun e => e.2) entries [] (fun e _ => rfl) hnd
  rw [h, List.nil_append]

theorem sortByAddrVal_pairwise_le (entries : List (List Nat × List Nat)) :
    (sortByAddrVal entries).Pairwise (fun e1 e2 => addrVal e1.1 ≤ addrVal e2.1) := by
  unfold sortByAddrVal
  have h := @List.sorted_mergeSort (List Nat × List Nat)
    (fun e1 e2 => Nat.ble (addrVal e1.1) (addrVal e2.1))
    (fun a b c hab hbc => by
      simp only [Nat.ble_eq] at hab hbc ⊢
      omega)
    (fun a b => by
      simp only [Bool.or_eq_true, Nat.ble_eq]
      omega)
    entries
  exact h.imp (fun hab => by simpa [Nat.ble_eq] using hab)

theorem pairwise_lt_of_le_nodup (f : α → Nat) :
    ∀ (l : List α), l.Pairwise (fun a b => f a ≤ f b) → (l.map f).Nodup →
      l.Pairwise (fun a b => f a < f b) := by
  intro l
  induction l with
  | nil => intro _ _; exact List.Pairwise.nil
  | cons x xs ih =>
    intro hp hnd
    rw [List.pairwise_cons] at hp ⊢
    rw [List.map_cons, List.nodup_cons] at hnd
    refine ⟨?_, ih hp.2 hnd.2⟩
    intro b hb
    have hle := hp.1 b hb
    have hne : f x ≠ f b := fun hcontra => hnd.1 (hcontra ▸ List.mem_map_of_mem f hb)
    omega

theorem eq_of_perm_strictSorted (f : α → Nat) (l1 l2 : List α) (hperm : l1.Perm l2)
    (h1 : l1.Pairwise (fun a b => f a < f b))
    (h2 : l2.Pairwise (fun a b => f a < f b)) : l1 = l2 := by
  haveI : IsAntisymm α (fun a b => f a < f b) :=
    ⟨fun a b hab hba => absurd (Nat.lt_trans hab hba) (Nat.lt_irrefl _)⟩
  exact List.eq_of_perm_of_sorted hperm h1 h2

theorem addrVal_inj_on_lower_addresses (a b : List Nat)
    (ha : isAddress a = true) (hb : isAddress b = true)
    (h : addrVal (a.map toLowerAscii) = addrVal (b.map toLowerAscii)) :
    a.map toLowerAscii = b.map toLowerAscii := by
  obtain ⟨bodyA, haeq, hlenA, hhexA⟩ := isAddress_elim a ha
  obtain ⟨bodyB, hbeq, hlenB, hhexB⟩ := isAddress_elim b hb
  subst haeq; subst hbeq
  simp only [List.map_cons]
  unfold addrVal at h
  simp only [List.map_cons, List.drop_succ_cons, List.drop_zero] at h
  unfold hexVal at h
  have hinj := hexVal_foldl_inj (bodyA.map toLowerAscii) (bodyB.map toLowerAscii) 0 0
    (fun c hc => by
      obtain ⟨x, hx, hxc⟩ := List.mem_map.mp hc
      rw [← hxc]
      exact isLowerHexCharCode_toLowerAscii x (hhexA x hx))
    (fun c hc => by
      obtain ⟨x, hx, hxc⟩ := List.mem_map.mp hc
      rw [← hxc]
      exact isLowerHexCharCode_toLowerAscii x (hhexB x hx))
    (by rw [List.length_map, List.length_map, hlenA, hlenB]) h
  rw [hinj.2]

theorem nodup_addrVal_of_nodup_lower_keys (keys : List (List Nat))
    (hvalid : ∀ x ∈ keys, ∃ a, isAddress a = true ∧ x = a.map toLowerAscii)
    (hnd : keys.Nodup) : (keys.map addrVal).Nodup := by
  refine List.Nodup.map_on ?_ hnd
  intro x hx y hy hxy
  obtain ⟨a, ha, hxa⟩ := hvalid x hx
  obtain ⟨b, hb, hyb⟩ := hvalid y hy
  subst hxa; subst hyb
  exact addrVal_inj_on_lower_addresses a b ha hb hxy

theorem bundle_of_valid (hashNib : List Nat → Nat → Nat) (confs : List Confirmation)
    (hv : ∀ c ∈ confs,
      (∃ a, getAddress hashNib c.owner = Except.ok a) ∧ c.signature ≠ [])
    (hnodup : (confs.map (ownerKey hashNib)).Nodup) :
    (bundleSignatures (confs.map (fun c => (normOwner hashNib c, c.signature)))).Perm
        (confs.map (fun c => ((normOwner hashNib c).map toLowerAscii, c.signature)))
    ∧ (bundleSignatures
        (confs.map (fun c => (normOwner hashNib c, c.signature)))).Pairwise
        (fun e1 e2 => addrVal e1.1 < addrVal e2.1) := by
  have hkeyfun : ∀ c ∈ confs,
      ownerKey hashNib c = some ((normOwner hashNib c).map toLowerAscii) := by
    intro c hc
    obtain ⟨⟨a, ha⟩, _⟩ := hv c hc
    unfold ownerKey normOwner
    rw [ha]
  have hkeys : (confs.map (fun c => (normOwner hashNib c).map toLowerAscii)).Nodup := by
    have h1 : confs.map (ownerKey hashNib) =
        (confs.map (fun c => (normOwner hashNib c).map toLowerAscii)).map some := by
      rw [List.map_map]
      exact List.map_congr_left hkeyfun
    rw [h1] at hnodup
    exact List.Nodup.of_map some hnodup
  have hmapkeys : ((confs.map (fun c => (normOwner hashNib c, c.signature))).map
      (fun e => e.1.map toLowerAscii)) =
      confs.map (fun c => (normOwner hashNib c).map toLowerAscii) := by
    rw [List.map_map]
    rfl
  have hdedup := addSignaturesToMap_eq
    (confs.map (fun c => (normOwner hashNib c, c.signature))) (by rw [hmapkeys]; exact hkeys)
  have hentries2 : ((confs.map (fun c => (normOwner hashNib c, c.signature))).map
      (fun e => (e.1.map toLowerAscii, e.2))) =
      confs.map (fun c => ((normOwner hashNib c).map toLowerAscii, c.signature)) := by
    rw [List.map_map]
    rfl
  have hperm : (bundleSignatures
      (confs.map (fun c => (normOwner hashNib c, c.signature)))).Perm
      (confs.map (fun c => ((normOwner hashNib c).map toLowerAscii, c.signature))) := by
    unfold bundleSignatures
    rw [hdedup, hentries2]
    unfold sortByAddrVal
    exact List.mergeSort_perm _ _
  refine ⟨hperm, ?_⟩
  have hle : (bundleSignatures
      (confs.map (fun c => (normOwner hashNib c, c.signature)))).Pairwise
      (fun e1 e2 => addrVal e1.1 ≤ addrVal e2.1) := by
    unfold bundleSignatures
    exact sortByAddrVal_pairwise_le _
  refine pairwise_lt_of_le_nodup (fun e : List Nat × List Nat => addrVal e.1) _ hle ?_
  have hnd2 : ((confs.map
      (fun c => ((normOwner hashNib c).map toLowerAscii, c.signature))).map
      (fun e => addrVal e.1)).Nodup := by
    rw [List.map_map]
    have : ((fun e : List Nat × List Nat => addrVal e.1) ∘
        (fun c => ((normOwner hashNib c).map toLowerAscii, c.signature))) =
        (fun c => addrVal ((normOwner hashNib c).map toLowerAscii)) := rfl
    rw [this]
    have hkv : (confs.map
        (fun c => addrVal ((normOwner hashNib c).map toLowerAscii))) =
        ((confs.map (fun c => (normOwner hashNib c).map toLowerAscii)).map addrVal) := by
      rw [List.map_map]
      rfl
    rw [hkv]
    refine nodup_addrVal_of_nodup_lower_keys _ ?_ hkeys
    intro x hx
    obtain ⟨c, hc, hcx⟩ := List.mem_map.mp hx
    obtain ⟨⟨a, ha⟩, _⟩ := hv c hc
    refine ⟨a, getAddress_ok_isAddress hashNib c.owner a ha, ?_⟩
    rw [← hcx]
    have : normOwner hashNib c = a := by unfold normOwner; rw [ha]
    rw [this]
  exact (hperm.map (fun e : List Nat × List Nat => addrVal e.1)).nodup_iff.mpr hnd2

/-- C3: with at least threshold confirmations, execution succeeds and
the submitted bundle is ordered strictly ascending by the numeric
value of the normalized owner address, independently of the order in
which the confirmations were submitted. -/
theorem execute_bundle_sorted_ascending :
    ∀ hashNib threshold confs ledger,
      threshold ≤ confs.length →
      (∀ c ∈ confs,
        (∃ a, getAddress hashNib c.owner = Except.ok a) ∧ c.signature ≠ []) →
      (confs.map (ownerKey hashNib)).Nodup →
      ∃ b, handleExecuteTransaction hashNib threshold confs ledger =
            Except.ok (ExecResult.executed b, ledger ++ [b])
          ∧ b.Pairwise (fun e1 e2 => addrVal e1.1 < addrVal e2.1)
          ∧ ∀ confs2, confs2.Perm confs →
              handleExecuteTransaction hashNib threshold confs2 ledger =
                Except.ok (ExecResult.executed b, ledger ++ [b]) := by
  intro hashNib threshold confs ledger hthr hv hnodup
  have hrun : ∀ cs : List Confirmation, threshold ≤ cs.length →
      (∀ c ∈ cs, (∃ a, getAddress hashNib c.owner = Except.ok a) ∧ c.signature ≠ []) →
      handleExecuteTransaction hashNib threshold cs ledger =
        Except.ok (ExecResult.executed
          (bundleSignatures (cs.map (fun c => (normOwner hashNib c, c.signature)))),
          ledger ++ [bundleSignatures
            (cs.map (fun c => (normOwner hashNib c, c.signature)))]) := by
    intro cs hthr2 hv2
    unfold handleExecuteTransaction
    rw [if_neg (by omega), collectSignatures_ok hashNib cs hv2]
  obtain ⟨hperm1, hsorted1⟩ := bundle_of_valid hashNib confs hv hnodup
  refine ⟨bundleSignatures (confs.map (fun c => (normOwner hashNib c, c.signature))),
    hrun confs hthr hv, hsorted1, ?_⟩
  intro confs2 hp
  have hthr2 : threshold ≤ confs2.length := by rw [hp.length_eq]; exact hthr
  have hv2 : ∀ c ∈ confs2,
      (∃ a, getAddress hashNib c.owner = Except.ok a) ∧ c.signature ≠ [] :=
    fun c hc => hv c (hp.subset hc)
  have hnodup2 : (confs2.map (ownerKey hashNib)).Nodup :=
    ((hp.map (ownerKey hashNib)).nodup_iff).mpr hnodup
  obtain ⟨hperm2, hsorted2⟩ := bundle_of_valid hashNib confs2 hv2 hnodup2
  have hbeq : bundleSignatures (confs2.map (fun c => (normOwner hashNib c, c.signature))) =
      bundleSignatures (confs.map (fun c => (normOwner hashNib c, c.signature))) := by
    refine eq_of_perm_strictSorted (fun e : List Nat × List Nat => addrVal e.1) _ _ ?_ hsorted2 hsorted1
    exact hperm2.trans ((hp.map _).trans hperm1.symm)
  rw [hrun confs2 hthr2 hv2, hbeq]

/-- Witness for C3: two owners submitted in descending address order,
threshold two; the emitted bundle is ascending. -/
theorem execute_bundle_sorted_ascending_witness :
    ∃ b, handleExecuteTransaction (fun _ _ => 0) 2
          [⟨48 :: 120 :: List.replicate 40 98, [5]⟩,
            ⟨48 :: 120 :: List.replicate 40 97, [6]⟩] [] =
          Except.ok (ExecResult.executed b, [] ++ [b])
        ∧ b.Pairwise (fun e1 e2 => addrVal e1.1 < addrVal e2.1)
        ∧ ∀ confs2, confs2.Perm
            [⟨48 :: 120 :: List.replicate 40 98, [5]⟩,
              ⟨48 :: 120 :: List.replicate 40 97, [6]⟩] →
            handleExecuteTransaction (fun _ _ => 0) 2 confs2 [] =
              Except.ok (ExecResult.executed b, [] ++ [b]) := by
  refine execute_bundle_sorted_ascending (fun _ _ => 0) 2
    [⟨48 :: 120 :: List.replicate 40 98, [5]⟩,
      ⟨48 :: 120 :: List.replicate 40 97, [6]⟩] [] (by decide) ?_ (by decide)
  intro c hc
  rcases List.mem_cons.mp hc with hc | hc
  · rw [hc]
    exact ⟨⟨48 :: 120 :: List.replicate 40 98, by rfl⟩, by decide⟩
  · rw [List.mem_singleton.mp hc]
    exact ⟨⟨48 :: 120 :: List.replicate 40 97, by rfl⟩, by decide⟩

/-- Witness for C10 on a one-record store. -/
theorem patch_updates_only_status_witness :
    (patchDelegatedAccessByIdRoute [3] (some [97])
        [([2], ⟨[2], [], [], [], [], [], [], none, [], [], [112], none⟩)] =
      (IdRouteResponse.notFound,
        [([2], ⟨[2], [], [], [], [], [], [], none, [], [], [112], none⟩)]))
    ∧ ∃ ns, patchDelegatedAccessByIdRoute [2] (some [97])
          [([2], ⟨[2], [], [], [], [], [], [], none, [], [], [112], none⟩)] =
        (IdRouteResponse.ok (sanitizeDelegatedAccess
            ⟨[2], [], [], [], [], [], [], none, [], [], ns, none⟩),
          mapSet [2] ⟨[2], [], [], [], [], [], [], none, [], [], ns, none⟩
            [([2], ⟨[2], [], [], [], [], [], [], none, [], [], [112], none⟩)]) := by
  constructor
  · exact (patch_updates_only_status [3] (some [97])
      [([2], ⟨[2], [], [], [], [], [], [], none, [], [], [112], none⟩)]).1 (by rfl)
  · obtain ⟨ns, h1, h2, h3, h4⟩ := (patch_updates_only_status [2] (some [97])
      [([2], ⟨[2], [], [], [], [], [], [], none, [], [], [112], none⟩)]).2
      ⟨[2], [], [], [], [], [], [], none, [], [], [112], none⟩ (by rfl)
    exact ⟨ns, h1⟩

end Coala

